import Mathlib

/-!
# Verification of the category-tree / order-management service

Shallow embedding of the repository's endpoint logic:

* `buildTree` models the in-memory tree construction of
  `GET /categories/tree` (`app/api/v1/endpoints/categories.py`,
  `get_category_tree`, lines 294-316): a single pass over the fetched rows
  that indexes every row by id in `categories_dict`, appends rows with a
  null parent to `root_categories`, and appends a row with a non-null
  parent to its parent's `children` list when the parent id is already in
  the dictionary, silently skipping the attachment otherwise.
* `getCategoryHierarchy` models `GET /categories/hierarchy`
  (`get_category_hierarchy`, lines 319-343).
* `cteRoots` / `cteDepth1` / `childrenCountFor` model the recursive-CTE
  query of `GET /analytics/category-children`
  (`app/api/v1/endpoints/analytics.py`, `get_category_children_count`).
* `aggregateCategoryStats` models the aggregation query shared by
  `GET /categories/stats` and `GET /analytics/category-stats`.
* `delete_category`, `create_order`, `delete_order` model the
  corresponding mutation endpoints over an explicit database state.

Machine integers do not overflow in the modelled paths: ids and counters
are `Nat`, on-hand quantities are `Int` (SQL `INTEGER` columns updated by
`quantity = quantity ± n`), prices are `ℚ` (SQL `NUMERIC(12,2)`).
-/

/-- A row of `app.categories` as fetched by the endpoints: columns
`id, name, parent_id, level, path, is_active` (`app/db/models.py`).
The `path` column is a materialized ancestry chain maintained by the
database trigger `update_category_path` (defined in DB migrations outside
the application sources); following the spec's description of the column
("materialized path ... representation of ancestry", "consistent with the
chain of ancestor names") it is modelled as the list of ancestor names,
ending in the row's own name. -/
structure CategoryRow where
  id : Nat
  name : String
  parent_id : Option Nat
  level : Nat
  path : List String
  is_active : Bool
deriving Repr, DecidableEq, Inhabited

/-- State of the Python loop in `get_category_tree`:
`next` is the index of the next row to be processed, `seen` records the
`categories_dict` insertions (key = row id, value = row index, most
recent first, so that an assoc lookup realises Python's last-write-wins
dictionary semantics), `edges` records every `children.append` as a pair
(parent row index, child row index) in execution order, and `roots`
records the `root_categories.append`s in execution order. -/
structure BuildState where
  next : Nat
  seen : List (Nat × Nat)
  edges : List (Nat × Nat)
  roots : List Nat
deriving Repr, DecidableEq

/-- First-match association lookup; on the `seen` list (most recent entry
first) this is exactly a Python dictionary read. -/
def lookupIdx : List (Nat × Nat) → Nat → Option Nat
  | [], _ => none
  | (k, v) :: rest, p => if k == p then some v else lookupIdx rest p

/-- One iteration of the `for row in result` loop of `get_category_tree`:
insert the row into `categories_dict` first, then either append it to
`root_categories` (null parent) or append it to the children of
`categories_dict[row.parent_id]` if that key is present, else do
nothing with it. -/
def buildStep (st : BuildState) (r : CategoryRow) : BuildState :=
  match r.parent_id with
  | none =>
    ⟨st.next + 1, (r.id, st.next) :: st.seen, st.edges, st.roots ++ [st.next]⟩
  | some p =>
    match lookupIdx ((r.id, st.next) :: st.seen) p with
    | some j => ⟨st.next + 1, (r.id, st.next) :: st.seen, st.edges ++ [(j, st.next)], st.roots⟩
    | none => ⟨st.next + 1, (r.id, st.next) :: st.seen, st.edges, st.roots⟩

/-- The whole loop of `get_category_tree` over the fetched row sequence. -/
def buildTree (rows : List CategoryRow) : BuildState :=
  rows.foldl buildStep ⟨0, [], [], []⟩

/-- Children of the node at row index `j`, in attachment order. -/
def childIdxs (edges : List (Nat × Nat)) (j : Nat) : List Nat :=
  (edges.filter (fun e => e.1 == j)).map (fun e => e.2)

/-- Pre-order rendering (row indices) of the subtree rooted at row index
`x`, fuel-bounded; `fuel = rows.length` is enough for every forest the
loop can build from an input without self-parenting rows. -/
def flatNode (edges : List (Nat × Nat)) : Nat → Nat → List Nat
  | 0, x => [x]
  | fuel + 1, x => x :: (childIdxs edges x).flatMap (flatNode edges fuel)

/-- Pre-order rendering (row indices) of the whole returned forest
`root_categories`: exactly the rows the serialized response contains. -/
def flattenForest (st : BuildState) (fuel : Nat) : List Nat :=
  st.roots.flatMap (flatNode st.edges fuel)

/-- The id-indexed dictionary contents after the loop, newest first. -/
def seenSpec (rows : List CategoryRow) : List (Nat × Nat) :=
  ((List.range rows.length).map (fun j => ((rows.getD j default).id, j))).reverse

/-- The edge (if any) contributed by one loop iteration. -/
def stepEdge (st : BuildState) (r : CategoryRow) : List (Nat × Nat) :=
  match r.parent_id with
  | none => []
  | some p =>
    match lookupIdx ((r.id, st.next) :: st.seen) p with
    | some j => [(j, st.next)]
    | none => []

/-- The root (if any) contributed by one loop iteration. -/
def stepRoot (st : BuildState) (r : CategoryRow) : List Nat :=
  match r.parent_id with
  | none => [st.next]
  | some _ => []

/-- Decidable check that every non-null `parent_id` is the id of a
strictly earlier row of the sequence. -/
def parentEarlierB (rows : List CategoryRow) : Bool :=
  (List.range rows.length).all (fun i =>
    Option.all (fun p => (List.range i).any (fun j => (rows.getD j default).id == p))
      ((rows.getD i default).parent_id))

/-- The five-category sample of the spec's concrete scenarios (appliance
and computer roots with three children), with accurate paths/levels. -/
def sampleRows : List CategoryRow :=
  [⟨1, "Appliances", none, 0, ["Appliances"], true⟩,
   ⟨2, "Computers", none, 0, ["Computers"], true⟩,
   ⟨3, "Washers", some 1, 1, ["Appliances", "Washers"], true⟩,
   ⟨4, "Fridges", some 1, 1, ["Appliances", "Fridges"], true⟩,
   ⟨5, "Laptops", some 2, 1, ["Computers", "Laptops"], true⟩]

/-- A single row whose parent id (42) is absent from the input set. -/
def orphanRows : List CategoryRow :=
  [⟨9, "X", some 42, 1, ["X"], true⟩]

/-- Two rows forming a parent-pointer 2-cycle: A's parent is B, B's
parent is A. -/
def cycleRows : List CategoryRow :=
  [⟨1, "A", some 2, 1, [], true⟩, ⟨2, "B", some 1, 1, [], true⟩]

/-- SQL `REPEAT(s, n)`: `n` copies of `s` concatenated. -/
def sqlRepeat (s : String) : Nat → String
  | 0 => ""
  | n + 1 => s ++ sqlRepeat s n

/-- A row of the `app.category_hierarchy` database view as consumed by
`get_category_hierarchy`. Modelled from the spec: the view itself is
created by DB migrations outside the application sources; the tests
assert it carries the columns `id`, `name`, `level`, `path`, and
throughout the repository's own queries `level` always names the stored,
trigger-maintained `level` column of `app.categories` (a recomputed depth
is always a separate column named `depth`). -/
structure HierarchyViewRow where
  id : Nat
  name : String
  level : Nat
  path : List String
deriving Repr, DecidableEq, Inhabited

/-- Modelled from the spec: the `app.category_hierarchy` view exposes the
stored columns `id, name, level, path` of each active category. -/
def hierarchyView (rows : List CategoryRow) : List HierarchyViewRow :=
  (rows.filter (fun r => r.is_active)).map (fun r => ⟨r.id, r.name, r.level, r.path⟩)

/-- One element of the `GET /categories/hierarchy` response
(`CategoryHierarchy` schema): `full_path` carries the computed
`tree_display` string. -/
structure CategoryHierarchyResp where
  id : Nat
  name : String
  level : Nat
  path : List String
  full_path : String
deriving Repr, DecidableEq

/-- The `CASE` expression of `get_category_hierarchy` (categories.py,
lines 326-332): explicit two-space paddings for levels 0-3 and
`REPEAT('  ', level)` beyond. -/
def treeDisplay (level : Nat) (name : String) : String :=
  match level with
  | 0 => name
  | 1 => "  " ++ name
  | 2 => "    " ++ name
  | 3 => "      " ++ name
  | l => sqlRepeat "  " l ++ name

/-- Endpoint `GET /categories/hierarchy`: map each view row to a response row
whose `full_path` is the `tree_display` string. -/
def get_category_hierarchy (vrows : List HierarchyViewRow) : List CategoryHierarchyResp :=
  vrows.map (fun r => ⟨r.id, r.name, r.level, r.path, treeDisplay r.level r.name⟩)

/-- Byte-wise lexicographic strict comparison on character lists — the
single consistent collation used to model the database's ORDER BY. -/
def strLtB : List Char → List Char → Bool
  | [], [] => false
  | [], _ :: _ => true
  | _ :: _, [] => false
  | a :: as, b :: bs => if a < b then true else if b < a then false else strLtB as bs

/-- Comparison `a ≤ b` for strings under the modelled collation. -/
def strLeB (a b : String) : Bool := !(strLtB b.data a.data)

/-- A row of `app.nomenclature` as fetched by the endpoints
(`app/db/models.py`): prices are `NUMERIC(12,2)` (modelled as `ℚ`),
quantities `INTEGER` (modelled as `ℤ`). -/
structure NomRow where
  id : Nat
  name : String
  sku : String
  category_id : Nat
  price : ℚ
  quantity : Int
  is_active : Bool
deriving Repr, DecidableEq, Inhabited

/-- Base case of the recursive CTE of `get_category_children_count`
(analytics.py, lines 61-86): active categories with a null parent,
at depth 0. -/
def cteRoots (rows : List CategoryRow) : List CategoryRow :=
  rows.filter (fun r => r.is_active && r.parent_id == none)

/-- Depth-1 layer of the same CTE: active rows joined to a depth-0 row
through `c.parent_id = ch.id` (one copy per matching depth-0 row, as
`UNION ALL` keeps duplicates). -/
def cteDepth1 (rows : List CategoryRow) : List CategoryRow :=
  (cteRoots rows).flatMap
    (fun p => rows.filter (fun c => c.is_active && c.parent_id == some p.id))

/-- The `COUNT(child.id)` of the final query for the group of root `r`:
depth-1 CTE rows with `child.parent_id = parent.id` (the `LEFT JOIN`
contributes zero when no child matches). -/
def childrenCountFor (rows : List CategoryRow) (r : CategoryRow) : Nat :=
  ((cteDepth1 rows).filter (fun c => c.parent_id == some r.id)).length

/-- Endpoint `GET /analytics/category-children`: one `(category_name,
children_count)` row per depth-0 category, ordered by name, paginated
with `LIMIT`/`OFFSET`. -/
def get_category_children_count (rows : List CategoryRow) (limit offset : Nat) :
    List (String × Nat) :=
  (((List.insertionSort (fun a b => strLeB a.name b.name = true) (cteRoots rows)).map
    (fun r => (r.name, childrenCountFor rows r))).drop offset).take limit

/-- Root with two children A, B where A itself has children C, D — the
spec's grandchildren scenario for the immediate-children count. -/
def c5Rows : List CategoryRow :=
  [⟨1, "Root", none, 0, ["Root"], true⟩,
   ⟨2, "A", some 1, 1, ["Root", "A"], true⟩,
   ⟨3, "B", some 1, 1, ["Root", "B"], true⟩,
   ⟨4, "C", some 2, 2, ["Root", "A", "C"], true⟩,
   ⟨5, "D", some 2, 2, ["Root", "A", "D"], true⟩]

/-- One row of the `GET /categories/stats` / `GET /analytics/category-stats`
response (`CategoryStats` schema). -/
structure CategoryStatsRow where
  category_id : Nat
  category_name : String
  products_count : Nat
  total_quantity : Int
  avg_price : ℚ
  min_price : ℚ
  max_price : ℚ
  total_value : ℚ
deriving Repr, DecidableEq, Inhabited

/-- The nomenclature rows matched to category `c` by the stats queries'
`LEFT JOIN ... ON c.id = n.category_id AND n.is_active = TRUE`. -/
def statsItems (c : CategoryRow) (noms : List NomRow) : List NomRow :=
  noms.filter (fun n => n.is_active && n.category_id == c.id)

/-- SQL `COALESCE(MIN(xs), 0)`. -/
def listMinQ : List ℚ → ℚ
  | [] => 0
  | p :: ps => ps.foldl min p

/-- SQL `COALESCE(MAX(xs), 0)`. -/
def listMaxQ : List ℚ → ℚ
  | [] => 0
  | p :: ps => ps.foldl max p

/-- One `GROUP BY c.id, c.name` group of the stats query: `COUNT(n.id)`,
`COALESCE(SUM(n.quantity), 0)`, `COALESCE(AVG(n.price), 0)`,
`COALESCE(MIN/MAX(n.price), 0)`, `COALESCE(SUM(n.price * n.quantity), 0)`. -/
def statsFor (c : CategoryRow) (noms : List NomRow) : CategoryStatsRow :=
  { category_id := c.id
    category_name := c.name
    products_count := (statsItems c noms).length
    total_quantity := ((statsItems c noms).map (fun n => n.quantity)).sum
    avg_price :=
      if (statsItems c noms).length = 0 then 0
      else ((statsItems c noms).map (fun n => n.price)).sum / ((statsItems c noms).length : ℚ)
    min_price := listMinQ ((statsItems c noms).map (fun n => n.price))
    max_price := listMaxQ ((statsItems c noms).map (fun n => n.price))
    total_value := ((statsItems c noms).map (fun n => n.price * (n.quantity : ℚ))).sum }

/-- The stats query of `get_category_stats` (both endpoints): one group
per active category (primary-key ids make `GROUP BY c.id, c.name` one
group per row), ordered by `total_value DESC NULLS LAST` (`total_value`
is never NULL thanks to `COALESCE`). -/
def aggregateCategoryStats (cats : List CategoryRow) (noms : List NomRow) :
    List CategoryStatsRow :=
  List.insertionSort (fun a b => b.total_value ≤ a.total_value)
    ((cats.filter (fun c => c.is_active)).map (fun c => statsFor c noms))

instance : IsTotal CategoryStatsRow (fun a b => b.total_value ≤ a.total_value) :=
  ⟨fun a b => le_total b.total_value a.total_value⟩

instance : IsTrans CategoryStatsRow (fun a b => b.total_value ≤ a.total_value) :=
  ⟨fun _ _ _ hab hbc => le_trans hbc hab⟩

/-- Inventory of the spec's stats scenario: one active item in category 3,
price 25000, quantity 5. -/
def statsNoms : List NomRow :=
  [⟨10, "Washer X", "SKU1", 3, 25000, 5, true⟩]

/-- Lexicographic strict comparison of materialized paths, segment by
segment under the string collation — the order `ORDER BY path` yields. -/
def pathLtB : List String → List String → Bool
  | [], [] => false
  | [], _ :: _ => true
  | _ :: _, [] => false
  | a :: as, b :: bs =>
    if strLtB a.data b.data then true
    else if strLtB b.data a.data then false
    else pathLtB as bs

/-- Comparison `x ≤ y` on materialized paths. -/
def pathLeB (x y : List String) : Bool := !(pathLtB y x)

/-- The sample forest as `ORDER BY path` would deliver it: each parent
precedes its subtree, children appear in name order inside it. -/
def c8Rows : List CategoryRow :=
  [⟨1, "Appliances", none, 0, ["Appliances"], true⟩,
   ⟨4, "Fridges", some 1, 1, ["Appliances", "Fridges"], true⟩,
   ⟨3, "Washers", some 1, 1, ["Appliances", "Washers"], true⟩,
   ⟨2, "Computers", none, 0, ["Computers"], true⟩,
   ⟨5, "Laptops", some 2, 1, ["Computers", "Laptops"], true⟩]

/-- The HTTP error signals the endpoints raise (`HTTPException` 404/400). -/
inductive ApiError where
  | notFound
  | badRequest
deriving Repr, DecidableEq

/-- The slice of durable state `delete_category` touches. -/
structure DBState where
  categories : List CategoryRow
  nomenclature : List NomRow
deriving Repr, DecidableEq

/-- Endpoint `DELETE /categories/{id}` (categories.py, lines 230-259): 404 when no
row has the id; 400 when any category row (active or not) references it
as parent; 400 when any nomenclature row (active or not) references it as
category; otherwise delete the row(s) with that id. Errors are raised
before the `DELETE` executes, so the state is returned unchanged. -/
def delete_category (category_id : Nat) (db : DBState) : Except ApiError Unit × DBState :=
  if (db.categories.find? (fun c => c.id == category_id)).isNone then
    (.error .notFound, db)
  else if 0 < db.categories.countP (fun c => c.parent_id == some category_id) then
    (.error .badRequest, db)
  else if 0 < db.nomenclature.countP (fun n => n.category_id == category_id) then
    (.error .badRequest, db)
  else
    (.ok (), { db with categories := db.categories.filter (fun c => !(c.id == category_id)) })

/-- Three categories (1 and 3 roots, 2 under 1) and one nomenclature row
in category 2: deleting 1 is blocked by its child, deleting 3 succeeds. -/
def c9Db : DBState :=
  ⟨[⟨1, "R", none, 0, ["R"], true⟩,
    ⟨2, "A", some 1, 1, ["R", "A"], true⟩,
    ⟨3, "S", none, 0, ["S"], true⟩],
   [⟨7, "P", "SKU7", 2, 10, 1, true⟩]⟩

/-- A row of `app.clients` as used by `create_order`. -/
structure ClientRow where
  id : Nat
  name : String
  is_active : Bool
deriving Repr, DecidableEq, Inhabited

/-- An order line item (`OrderItemCreate` schema / `app.order_items`
row). -/
structure OrderItemRow where
  nomenclature_id : Nat
  quantity : Int
  price : ℚ
  total_price : ℚ
deriving Repr, DecidableEq, Inhabited

/-- A row of `app.orders` together with its owned line items (which the
schema deletes by cascade with the order). -/
structure OrderRow where
  id : Nat
  client_id : Nat
  status : String
  payment_status : String
  items : List OrderItemRow
deriving Repr, DecidableEq, Inhabited

/-- The slice of durable state the order endpoints touch. -/
structure OrdersState where
  clients : List ClientRow
  nomenclature : List NomRow
  orders : List OrderRow
deriving Repr, DecidableEq

/-- The `OrderCreate` request body. -/
structure OrderPayload where
  client_id : Nat
  status : String
  payment_status : String
  items : List OrderItemRow
deriving Repr, DecidableEq

/-- SQL `UPDATE app.nomenclature SET quantity = quantity + d WHERE id = nid`. -/
def applyDelta (d : Int) (nid : Nat) (noms : List NomRow) : List NomRow :=
  noms.map (fun n => if n.id == nid then { n with quantity := n.quantity + d } else n)

/-- The validation loop of `create_order` (orders.py, lines 196-222): the
item's nomenclature must exist and be active, have enough stock, and its
price must equal the stored price; the first violation aborts with 400. -/
def checkItems : List OrderItemRow → List NomRow → Option ApiError
  | [], _ => none
  | it :: rest, noms =>
    match noms.find? (fun n => n.id == it.nomenclature_id && n.is_active) with
    | none => some .badRequest
    | some n =>
      if n.quantity < it.quantity then some .badRequest
      else if it.price ≠ n.price then some .badRequest
      else checkItems rest noms

/-- The id the database sequence hands to the inserted order: modelled as
one more than the largest existing order id (fresh by construction). -/
def freshOrderId (st : OrdersState) : Nat :=
  (st.orders.map (fun o => o.id)).foldr max 0 + 1

/-- Endpoint `POST /orders/` (orders.py, lines 186-303): validate the client and
every item, then insert the order with its items and decrement each
item's nomenclature quantity by the ordered quantity. Validation happens
entirely before any write. -/
def create_order (p : OrderPayload) (st : OrdersState) : Except ApiError Nat × OrdersState :=
  if (st.clients.find? (fun c => c.id == p.client_id && c.is_active)).isNone then
    (.error .badRequest, st)
  else
    match checkItems p.items st.nomenclature with
    | some e => (.error e, st)
    | none =>
      (.ok (freshOrderId st),
       { st with
         orders := st.orders ++
           [⟨freshOrderId st, p.client_id, p.status, p.payment_status, p.items⟩],
         nomenclature := p.items.foldl
           (fun ns it => applyDelta (-it.quantity) it.nomenclature_id ns)
           st.nomenclature })

/-- Endpoint `DELETE /orders/{id}` (orders.py, lines 382-426): 404 when the order
is absent, 400 when its status is 'completed' or 'processing', otherwise
return each item's quantity to stock and delete the order (items cascade). -/
def delete_order (order_id : Nat) (st : OrdersState) : Except ApiError Unit × OrdersState :=
  match st.orders.find? (fun o => o.id == order_id) with
  | none => (.error .notFound, st)
  | some o =>
    if o.status == "completed" || o.status == "processing" then
      (.error .badRequest, st)
    else
      (.ok (),
       { st with
         nomenclature := o.items.foldl
           (fun ns it => applyDelta it.quantity it.nomenclature_id ns)
           st.nomenclature,
         orders := st.orders.filter (fun o2 => !(o2.id == order_id)) })

/-- One active client, one nomenclature row with 5 on hand, no orders. -/
def c10St : OrdersState :=
  ⟨[⟨1, "Ivan", true⟩], [⟨1, "Widget", "SKU1", 2, 10, 5, true⟩], []⟩

/-- An order of 2 units of nomenclature 1 at the stored price. -/
def c10Payload : OrderPayload := ⟨1, "pending", "unpaid", [⟨1, 2, 10, 20⟩]⟩

/-- The state after the successful creation: 3 units left, one order. -/
def c10St1 : OrdersState :=
  ⟨[⟨1, "Ivan", true⟩], [⟨1, "Widget", "SKU1", 2, 10, 3, true⟩],
   [⟨1, 1, "pending", "unpaid", [⟨1, 2, 10, 20⟩]⟩]⟩

theorem buildTree_append (rs : List CategoryRow) (r : CategoryRow) :
    buildTree (rs ++ [r]) = buildStep (buildTree rs) r := by
  simp [buildTree, List.foldl_append]

theorem buildStep_next (st : BuildState) (r : CategoryRow) :
    (buildStep st r).next = st.next + 1 := by
  unfold buildStep
  split
  · rfl
  · split <;> rfl

theorem buildStep_seen (st : BuildState) (r : CategoryRow) :
    (buildStep st r).seen = (r.id, st.next) :: st.seen := by
  unfold buildStep
  split
  · rfl
  · split <;> rfl

theorem buildTree_next (rows : List CategoryRow) :
    (buildTree rows).next = rows.length := by
  induction rows using List.reverseRecOn with
  | nil => rfl
  | append_singleton rs r ih =>
      rw [buildTree_append, buildStep_next, ih, List.length_append, List.length_singleton]

theorem seenSpec_append (rs : List CategoryRow) (r : CategoryRow) :
    seenSpec (rs ++ [r]) = (r.id, rs.length) :: seenSpec rs := by
  have hlen : (rs ++ [r]).length = rs.length + 1 := by simp
  have hgetn : (rs ++ [r]).getD rs.length default = r := by
    simp [List.getD_append_right]
  have hmap : (List.range rs.length).map (fun j => (((rs ++ [r]).getD j default).id, j))
      = (List.range rs.length).map (fun j => ((rs.getD j default).id, j)) := by
    apply List.map_congr_left
    intro j hj
    rw [List.mem_range] at hj
    rw [List.getD_append _ _ _ _ hj]
  unfold seenSpec
  rw [hlen, List.range_succ, List.map_append, hmap, List.reverse_append]
  simp [hgetn]

theorem buildTree_seen (rows : List CategoryRow) :
    (buildTree rows).seen = seenSpec rows := by
  induction rows using List.reverseRecOn with
  | nil => rfl
  | append_singleton rs r ih =>
      rw [buildTree_append, buildStep_seen, ih, buildTree_next, seenSpec_append]

theorem buildStep_edges (st : BuildState) (r : CategoryRow) :
    (buildStep st r).edges = st.edges ++ stepEdge st r := by
  unfold buildStep stepEdge
  split
  · simp
  · split <;> simp

theorem buildStep_roots (st : BuildState) (r : CategoryRow) :
    (buildStep st r).roots = st.roots ++ stepRoot st r := by
  unfold buildStep stepRoot
  split
  · simp
  · split <;> simp

theorem mem_stepEdge {st : BuildState} {r : CategoryRow} {e : Nat × Nat}
    (he : e ∈ stepEdge st r) :
    ∃ p j, r.parent_id = some p ∧
      lookupIdx ((r.id, st.next) :: st.seen) p = some j ∧ e = (j, st.next) := by
  unfold stepEdge at he
  split at he
  · simp at he
  · rename_i p hp
    split at he
    · rename_i j hj
      simp at he
      exact ⟨p, j, hp, hj, by simp [he]⟩
    · simp at he

theorem lookupIdx_mem {l : List (Nat × Nat)} {p j : Nat}
    (h : lookupIdx l p = some j) : (p, j) ∈ l := by
  induction l with
  | nil => simp [lookupIdx] at h
  | cons kv rest ih =>
      unfold lookupIdx at h
      split at h
      · rename_i hk
        simp at h hk
        simp [← hk, ← h]
      · exact List.mem_cons_of_mem _ (ih h)

theorem lookupIdx_isSome_of_mem {l : List (Nat × Nat)} {p j : Nat}
    (h : (p, j) ∈ l) : (lookupIdx l p).isSome := by
  induction l with
  | nil => simp at h
  | cons kv rest ih =>
      unfold lookupIdx
      split
      · simp
      · rename_i hk
        rcases List.mem_cons.mp h with h' | h'
        · exact absurd (by rw [← h']; simp) hk
        · exact ih h'

theorem mem_seenSpec {rows : List CategoryRow} {p j : Nat}
    (h : (p, j) ∈ seenSpec rows) :
    j < rows.length ∧ (rows.getD j default).id = p := by
  unfold seenSpec at h
  rw [List.mem_reverse] at h
  rcases List.mem_map.mp h with ⟨a, ha, hpj⟩
  rw [List.mem_range] at ha
  rcases Prod.mk.injEq .. ▸ hpj with ⟨h1, h2⟩
  subst h2
  exact ⟨ha, h1⟩

theorem seenSpec_mem {rows : List CategoryRow} {j : Nat}
    (hj : j < rows.length) :
    ((rows.getD j default).id, j) ∈ seenSpec rows := by
  unfold seenSpec
  rw [List.mem_reverse]
  exact List.mem_map.mpr ⟨j, List.mem_range.mpr hj, rfl⟩

/-- With pairwise-distinct ids, the dictionary maps the id of the `j`-th
row to `j` itself. -/
theorem lookupIdx_seenSpec_eq {rows : List CategoryRow} {j : Nat}
    (hnd : (rows.map (fun r => r.id)).Nodup) (hj : j < rows.length) :
    lookupIdx (seenSpec rows) ((rows.getD j default).id) = some j := by
  have hsome := lookupIdx_isSome_of_mem (seenSpec_mem hj)
  rcases Option.isSome_iff_exists.mp hsome with ⟨j', hj'⟩
  have hmem := mem_seenSpec (lookupIdx_mem hj')
  rcases hmem with ⟨hlt', hid'⟩
  have hmemj' : rows.getD j' default ∈ rows := by
    rw [List.getD_eq_getElem rows default hlt']
    exact List.getElem_mem hlt'
  have hmemj : rows.getD j default ∈ rows := by
    rw [List.getD_eq_getElem rows default hj]
    exact List.getElem_mem hj
  have helem : rows.getD j' default = rows.getD j default :=
    List.inj_on_of_nodup_map hnd hmemj' hmemj hid'
  have hget : rows.get ⟨j', hlt'⟩ = rows.get ⟨j, hj⟩ := by
    rw [List.get_eq_getElem, List.get_eq_getElem,
      ← List.getD_eq_getElem rows default hlt', ← List.getD_eq_getElem rows default hj]
    exact helem
  have hfin : (⟨j', hlt'⟩ : Fin rows.length) = ⟨j, hj⟩ :=
    (List.Nodup.get_inj_iff (List.Nodup.of_map _ hnd)).mp hget
  have : j' = j := congrArg Fin.val hfin
  rw [hj', this]

theorem mem_stepRoot {st : BuildState} {r : CategoryRow} {x : Nat}
    (hx : x ∈ stepRoot st r) : r.parent_id = none ∧ x = st.next := by
  unfold stepRoot at hx
  split at hx
  · rename_i hp
    simp at hx
    exact ⟨hp, hx⟩
  · simp at hx

theorem getD_append_last (rs : List CategoryRow) (r : CategoryRow) :
    (rs ++ [r]).getD rs.length default = r := by
  simp [List.getD_append_right]

/-- Every recorded `children.append` attaches a later (or equal) row to an
earlier dictionary entry, targets a valid row index, and its target row
really names the source row's id as its parent. -/
theorem buildTree_edges_inv (rows : List CategoryRow) :
    ∀ e ∈ (buildTree rows).edges,
      e.1 ≤ e.2 ∧ e.2 < rows.length ∧
      (rows.getD e.2 default).parent_id = some ((rows.getD e.1 default).id) := by
  induction rows using List.reverseRecOn with
  | nil => intro e he; simp [buildTree] at he
  | append_singleton rs r ih =>
      intro e he
      rw [buildTree_append, buildStep_edges] at he
      rcases List.mem_append.mp he with h | h
      · rcases ih e h with ⟨h1, h2, h3⟩
        have h2' : e.2 < (rs ++ [r]).length := by simp; omega
        refine ⟨h1, h2', ?_⟩
        rw [List.getD_append _ _ _ _ h2, List.getD_append _ _ _ _ (lt_of_le_of_lt h1 h2)]
        exact h3
      · rcases mem_stepEdge h with ⟨p, j, hp, hl, he'⟩
        rw [buildTree_next, buildTree_seen] at hl
        have hl' : lookupIdx (seenSpec (rs ++ [r])) p = some j := by
          rw [seenSpec_append]; exact hl
        rcases mem_seenSpec (lookupIdx_mem hl') with ⟨hjlt, hjid⟩
        have hlen : (rs ++ [r]).length = rs.length + 1 := by simp
        rw [hlen] at hjlt
        rw [buildTree_next] at he'
        subst he'
        refine ⟨by simp; omega, by simp, ?_⟩
        show ((rs ++ [r]).getD rs.length default).parent_id
          = some (((rs ++ [r]).getD j default).id)
        rw [getD_append_last, hjid, hp]

/-- Without self-parenting rows, every recorded attachment goes from a
strictly earlier row to a strictly later one. -/
theorem buildTree_edge_lt (rows : List CategoryRow)
    (hsp : ∀ r ∈ rows, r.parent_id ≠ some r.id) :
    ∀ e ∈ (buildTree rows).edges, e.1 < e.2 := by
  induction rows using List.reverseRecOn with
  | nil => intro e he; simp [buildTree] at he
  | append_singleton rs r ih =>
      intro e he
      rw [buildTree_append, buildStep_edges] at he
      rcases List.mem_append.mp he with h | h
      · exact ih (fun x hx => hsp x (List.mem_append_left _ hx)) e h
      · rcases mem_stepEdge h with ⟨p, j, hp, hl, he'⟩
        rw [buildTree_next, buildTree_seen] at hl
        have hpr : p ≠ r.id := by
          intro hcontra
          exact hsp r (List.mem_append_right _ (List.mem_singleton_self r))
            (by rw [hp, hcontra])
        have hl' : lookupIdx (seenSpec rs) p = some j := by
          unfold lookupIdx at hl
          split at hl
          · rename_i hk
            have hid : r.id = p := by simpa using hk
            exact absurd hid.symm hpr
          · exact hl
        rcases mem_seenSpec (lookupIdx_mem hl') with ⟨hjlt, _⟩
        rw [buildTree_next] at he'
        subst he'
        simpa using hjlt

/-- Every entry of `root_categories` is a valid row index whose row has a
null parent. -/
theorem buildTree_roots_inv (rows : List CategoryRow) :
    ∀ x ∈ (buildTree rows).roots,
      x < rows.length ∧ (rows.getD x default).parent_id = none := by
  induction rows using List.reverseRecOn with
  | nil => intro x hx; simp [buildTree] at hx
  | append_singleton rs r ih =>
      intro x hx
      rw [buildTree_append, buildStep_roots] at hx
      rcases List.mem_append.mp hx with h | h
      · rcases ih x h with ⟨h1, h2⟩
        refine ⟨by simp; omega, ?_⟩
        rw [List.getD_append _ _ _ _ h1]
        exact h2
      · rcases mem_stepRoot h with ⟨hp, hx'⟩
        rw [buildTree_next] at hx'
        subst hx'
        exact ⟨by simp, by rw [getD_append_last]; exact hp⟩

/-- Conversely, every row with a null parent is appended to
`root_categories`. -/
theorem buildTree_roots_complete (rows : List CategoryRow) :
    ∀ i < rows.length, (rows.getD i default).parent_id = none →
      i ∈ (buildTree rows).roots := by
  induction rows using List.reverseRecOn with
  | nil => intro i hi; simp at hi
  | append_singleton rs r ih =>
      intro i hi hp
      rw [buildTree_append, buildStep_roots]
      have hlen : (rs ++ [r]).length = rs.length + 1 := by simp
      rw [hlen] at hi
      rcases Nat.lt_or_ge i rs.length with h | h
      · rw [List.getD_append _ _ _ _ h] at hp
        exact List.mem_append_left _ (ih i h hp)
      · have hieq : i = rs.length := by omega
        subst hieq
        rw [getD_append_last] at hp
        apply List.mem_append_right
        unfold stepRoot
        rw [buildTree_next]
        split
        · simp
        · rename_i hq
          rw [hp] at hq
          exact absurd hq (by simp)

/-- The list `root_categories` grows in strictly increasing row-index order. -/
theorem buildTree_roots_sorted (rows : List CategoryRow) :
    List.Pairwise (· < ·) (buildTree rows).roots := by
  induction rows using List.reverseRecOn with
  | nil => simp [buildTree]
  | append_singleton rs r ih =>
      rw [buildTree_append, buildStep_roots]
      apply List.pairwise_append.mpr
      refine ⟨ih, ?_, ?_⟩
      · unfold stepRoot
        split <;> simp
      · intro x hx y hy
        rcases mem_stepRoot hy with ⟨_, hy'⟩
        rw [buildTree_next] at hy'
        subst hy'
        exact (buildTree_roots_inv rs x hx).1

/-- Attachment targets appear in strictly increasing row-index order. -/
theorem buildTree_edge_targets_sorted (rows : List CategoryRow) :
    List.Pairwise (· < ·) ((buildTree rows).edges.map (fun e => e.2)) := by
  induction rows using List.reverseRecOn with
  | nil => simp [buildTree]
  | append_singleton rs r ih =>
      rw [buildTree_append, buildStep_edges, List.map_append]
      apply List.pairwise_append.mpr
      refine ⟨ih, ?_, ?_⟩
      · unfold stepEdge
        split
        · simp
        · split <;> simp
      · intro x hx y hy
        rcases List.mem_map.mp hx with ⟨e, he, hx'⟩
        rcases List.mem_map.mp hy with ⟨e', he', hy'⟩
        rcases mem_stepEdge he' with ⟨p, j, _, _, he''⟩
        subst he''
        rw [buildTree_next] at hy'
        subst hy'
        subst hx'
        exact (buildTree_edges_inv rs e he).2.1

theorem childIdxs_snoc (E : List (Nat × Nat)) (j m x : Nat) :
    childIdxs (E ++ [(j, m)]) x = childIdxs E x ++ (if j = x then [m] else []) := by
  unfold childIdxs
  rw [List.filter_append, List.map_append]
  congr 1
  by_cases h : j = x <;> simp [h]

theorem childIdxs_eq_nil {E : List (Nat × Nat)} {x : Nat}
    (h : ∀ e ∈ E, e.1 ≠ x) : childIdxs E x = [] := by
  unfold childIdxs
  rw [List.filter_eq_nil_iff.mpr (fun e he => by simpa using h e he)]
  rfl

theorem flatNode_no_children {E : List (Nat × Nat)} {x : Nat}
    (h : childIdxs E x = []) (f : Nat) : flatNode E f x = [x] := by
  cases f <;> simp [flatNode, h]

theorem mem_childIdxs {E : List (Nat × Nat)} {x c : Nat}
    (h : c ∈ childIdxs E x) : ∃ e ∈ E, e.1 = x ∧ e.2 = c := by
  unfold childIdxs at h
  rcases List.mem_map.mp h with ⟨e, he, hc⟩
  rcases List.mem_filter.mp he with ⟨heE, hex⟩
  exact ⟨e, heE, by simpa using hex, hc⟩

theorem mem_flatNode {E : List (Nat × Nat)} {y : Nat} :
    ∀ {f x : Nat}, y ∈ flatNode E f x → y = x ∨ ∃ e ∈ E, e.2 = y := by
  intro f
  induction f with
  | zero => intro x h; simp [flatNode] at h; exact Or.inl h
  | succ f ih =>
      intro x h
      simp only [flatNode, List.mem_cons] at h
      rcases h with h | h
      · exact Or.inl h
      · rcases List.mem_flatMap.mp h with ⟨c, hc, hyc⟩
        rcases ih hyc with h' | h'
        · rcases mem_childIdxs hc with ⟨e, he, _, he2⟩
          exact Or.inr ⟨e, he, by rw [he2, ← h']⟩
        · exact Or.inr h'

theorem mem_flattenForest {st : BuildState} {y f : Nat}
    (h : y ∈ flattenForest st f) :
    y ∈ st.roots ∨ ∃ e ∈ st.edges, e.2 = y := by
  rcases List.mem_flatMap.mp h with ⟨x, hx, hyx⟩
  rcases mem_flatNode hyx with h' | h'
  · exact Or.inl (h' ▸ hx)
  · exact Or.inr h'

/-- Everything the serialized forest contains is a valid row index. -/
theorem flattenForest_lt (rows : List CategoryRow) (f : Nat) :
    ∀ y ∈ flattenForest (buildTree rows) f, y < rows.length := by
  intro y hy
  rcases mem_flattenForest hy with h | ⟨e, he, hey⟩
  · exact (buildTree_roots_inv rows y h).1
  · rw [← hey]
    exact (buildTree_edges_inv rows e he).2.1

theorem count_flatMap_eq_sum (y : Nat) (l : List Nat) (g : Nat → List Nat) :
    List.count y (l.flatMap g) = (l.map (fun x => List.count y (g x))).sum := by
  induction l with
  | nil => simp
  | cons a l ih => simp [List.count_append, ih]

theorem count_flatMap_add (y : Nat) (l : List Nat) (g g' : Nat → List Nat) (t : Nat → Nat)
    (h : ∀ x ∈ l, List.count y (g' x) = List.count y (g x) + t x) :
    List.count y (l.flatMap g') = List.count y (l.flatMap g) + (l.map t).sum := by
  induction l with
  | nil => simp
  | cons a l ih =>
      simp only [List.flatMap_cons, List.count_append, List.map_cons, List.sum_cons]
      rw [h a (List.mem_cons_self a l), ih (fun x hx => h x (List.mem_cons_of_mem a hx))]
      omega

/-- Key splice lemma: appending a fresh leaf edge `(j, m)` (with `m`
beyond every index the edge list mentions) inserts exactly one copy of
`m` under every printed copy of `j` and changes nothing else. -/
theorem count_flatNode_snoc {E : List (Nat × Nat)} {m j : Nat}
    (hE : ∀ e ∈ E, e.1 < e.2 ∧ e.2 < m) (hjm : j < m) :
    ∀ f x y, x < m → m - x ≤ f →
      List.count y (flatNode (E ++ [(j, m)]) f x)
        = List.count y (flatNode E f x)
          + (if y = m then List.count j (flatNode E f x) else 0) := by
  have hsrc : ∀ e ∈ E, e.1 ≠ m := fun e he => by
    have := hE e he
    omega
  have hmE : childIdxs E m = [] := childIdxs_eq_nil (fun e he => hsrc e he)
  have hmE' : childIdxs (E ++ [(j, m)]) m = [] := by
    rw [childIdxs_snoc, hmE]
    simp
    omega
  intro f
  induction f with
  | zero => intro x y hx hf; omega
  | succ f ih =>
      intro x y hx hf
      have hstep : ∀ c ∈ childIdxs E x,
          List.count y (flatNode (E ++ [(j, m)]) f c)
            = List.count y (flatNode E f c)
              + (if y = m then List.count j (flatNode E f c) else 0) := by
        intro c hc
        rcases mem_childIdxs hc with ⟨e, he, he1, he2⟩
        have hce := hE e he
        exact ih c y (by omega) (by omega)
      have hmain : List.count y ((childIdxs E x).flatMap (flatNode (E ++ [(j, m)]) f))
          = List.count y ((childIdxs E x).flatMap (flatNode E f))
            + (if y = m then List.count j ((childIdxs E x).flatMap (flatNode E f)) else 0) := by
        by_cases hym : y = m
        · rw [count_flatMap_add y (childIdxs E x) (flatNode E f) (flatNode (E ++ [(j, m)]) f)
            (fun c => List.count j (flatNode E f c))
            (fun c hc => by rw [hstep c hc, if_pos hym])]
          rw [← count_flatMap_eq_sum j (childIdxs E x) (flatNode E f), if_pos hym]
        · rw [count_flatMap_add y (childIdxs E x) (flatNode E f) (flatNode (E ++ [(j, m)]) f)
            (fun _ => 0) (fun c hc => by rw [hstep c hc, if_neg hym])]
          rw [if_neg hym]
          simp
      have hextra : List.count y ((if j = x then [m] else []).flatMap (flatNode (E ++ [(j, m)]) f))
          = if j = x then (if y = m then 1 else 0) else 0 := by
        by_cases hjx : j = x
        · rw [if_pos hjx, if_pos hjx]
          simp only [List.flatMap_cons, List.flatMap_nil, List.append_nil]
          rw [flatNode_no_children hmE' f, List.count_cons, List.count_nil]
          simp only [beq_iff_eq, Nat.zero_add]
          split_ifs <;> omega
        · rw [if_neg hjx, if_neg hjx]
          simp
      show List.count y
          (x :: (childIdxs (E ++ [(j, m)]) x).flatMap (flatNode (E ++ [(j, m)]) f)) = _
      rw [childIdxs_snoc, List.flatMap_append, List.count_cons, List.count_append,
        hmain, hextra]
      show _ = List.count y (x :: (childIdxs E x).flatMap (flatNode E f))
          + (if y = m then
              List.count j (x :: (childIdxs E x).flatMap (flatNode E f)) else 0)
      rw [List.count_cons, List.count_cons]
      simp only [beq_iff_eq]
      split_ifs <;> omega

theorem stepEdge_none {st : BuildState} {r : CategoryRow}
    (hp : r.parent_id = none) : stepEdge st r = [] := by
  unfold stepEdge
  rw [hp]

theorem stepRoot_none {st : BuildState} {r : CategoryRow}
    (hp : r.parent_id = none) : stepRoot st r = [st.next] := by
  unfold stepRoot
  rw [hp]

theorem stepRoot_some {st : BuildState} {r : CategoryRow} {p : Nat}
    (hp : r.parent_id = some p) : stepRoot st r = [] := by
  unfold stepRoot
  rw [hp]

/-- With pairwise-distinct ids, rows with the same id sit at the same
index. -/
theorem idx_eq_of_id_eq {rows : List CategoryRow}
    (hnd : (rows.map (fun r => r.id)).Nodup) {i j : Nat}
    (hi : i < rows.length) (hj : j < rows.length)
    (h : (rows.getD i default).id = (rows.getD j default).id) : i = j := by
  have hmemi : rows.getD i default ∈ rows := by
    rw [List.getD_eq_getElem rows default hi]
    exact List.getElem_mem hi
  have hmemj : rows.getD j default ∈ rows := by
    rw [List.getD_eq_getElem rows default hj]
    exact List.getElem_mem hj
  have helem : rows.getD i default = rows.getD j default :=
    List.inj_on_of_nodup_map hnd hmemi hmemj h
  have hget : rows.get ⟨i, hi⟩ = rows.get ⟨j, hj⟩ := by
    rw [List.get_eq_getElem, List.get_eq_getElem,
      ← List.getD_eq_getElem rows default hi, ← List.getD_eq_getElem rows default hj]
    exact helem
  exact congrArg Fin.val ((List.Nodup.get_inj_iff (List.Nodup.of_map _ hnd)).mp hget)

/-- With distinct ids and every parent id resolving to an earlier row,
all recorded attachments go strictly forward. -/
theorem buildTree_edge_lt_of_sorted_input (rows : List CategoryRow)
    (hnd : (rows.map (fun r => r.id)).Nodup)
    (hpar : ∀ i, i < rows.length → ∀ p, (rows.getD i default).parent_id = some p →
      ∃ j, j < i ∧ (rows.getD j default).id = p) :
    ∀ e ∈ (buildTree rows).edges, e.1 < e.2 := by
  intro e he
  rcases buildTree_edges_inv rows e he with ⟨h1, h2, h3⟩
  rcases hpar e.2 h2 _ h3 with ⟨j, hj, hjid⟩
  have : j = e.1 := idx_eq_of_id_eq hnd (by omega) (by omega) hjid
  omega

/-- The forest never prints an out-of-range index; in particular never the
index of a row that is yet to come. -/
theorem count_flattenForest_out (rows : List CategoryRow) (f y : Nat)
    (hy : rows.length ≤ y) :
    List.count y (flattenForest (buildTree rows) f) = 0 := by
  apply List.count_eq_zero.mpr
  intro hmem
  have := flattenForest_lt rows f y hmem
  omega

/-- P1 engine: under distinct ids and parents resolving to earlier rows,
the rendered forest contains every row index exactly once. -/
theorem buildTree_complete : ∀ rows : List CategoryRow,
    (rows.map (fun r => r.id)).Nodup →
    (∀ i, i < rows.length → ∀ p, (rows.getD i default).parent_id = some p →
      ∃ j, j < i ∧ (rows.getD j default).id = p) →
    ∀ f, rows.length ≤ f → ∀ y,
      List.count y (flattenForest (buildTree rows) f)
        = if y < rows.length then 1 else 0 := by
  intro rows
  induction rows using List.reverseRecOn with
  | nil =>
      intro _ _ f _ y
      simp [buildTree, flattenForest]
  | append_singleton rs r ih =>
      intro hnd hpar f hf y
      have hnd' : (rs.map (fun r => r.id)).Nodup := by
        rw [List.map_append] at hnd
        exact (List.nodup_append.mp hnd).1
      have hpar' : ∀ i, i < rs.length → ∀ p, (rs.getD i default).parent_id = some p →
          ∃ j, j < i ∧ (rs.getD j default).id = p := by
        intro i hi p hp
        have hi' : i < (rs ++ [r]).length := by simp; omega
        have hp' : ((rs ++ [r]).getD i default).parent_id = some p := by
          rw [List.getD_append _ _ _ _ hi]
          exact hp
        rcases hpar i hi' p hp' with ⟨j, hj, hjid⟩
        refine ⟨j, hj, ?_⟩
        rw [List.getD_append _ _ _ _ (by omega)] at hjid
        exact hjid
      have hlen : (rs ++ [r]).length = rs.length + 1 := by simp
      have hf' : rs.length ≤ f := by rw [hlen] at hf; omega
      rw [buildTree_append]
      unfold flattenForest
      rw [buildStep_roots, buildStep_edges]
      cases hp : r.parent_id with
      | none =>
          rw [stepEdge_none hp, stepRoot_none hp, List.append_nil, List.flatMap_append,
            List.count_append, buildTree_next]
          have hleaf : flatNode (buildTree rs).edges f rs.length = [rs.length] := by
            apply flatNode_no_children
            apply childIdxs_eq_nil
            intro e he
            have := buildTree_edges_inv rs e he
            omega
          have hsecond : List.count y ([rs.length].flatMap (flatNode (buildTree rs).edges f))
              = if rs.length = y then 1 else 0 := by
            simp only [List.flatMap_cons, List.flatMap_nil, List.append_nil, hleaf,
              List.count_cons, List.count_nil, beq_iff_eq, Nat.zero_add]
          rw [hsecond]
          have hfirst := ih hnd' hpar' f hf' y
          unfold flattenForest at hfirst
          rw [hfirst, hlen]
          split_ifs <;> omega
      | some p =>
          have hrlast : ((rs ++ [r]).getD rs.length default).parent_id = some p := by
            rw [getD_append_last]
            exact hp
          rcases hpar rs.length (by omega) p hrlast with ⟨j₀, hj₀, hj₀id⟩
          rw [List.getD_append _ _ _ _ hj₀] at hj₀id
          have hrne : ¬ (r.id == p) = true := by
            simp only [beq_iff_eq]
            intro hcontra
            have h1 : ((rs ++ [r]).getD rs.length default).id = p := by
              rw [getD_append_last]; exact hcontra
            have h2 : ((rs ++ [r]).getD j₀ default).id = p := by
              rw [List.getD_append _ _ _ _ hj₀]; exact hj₀id
            have := idx_eq_of_id_eq hnd (i := rs.length) (j := j₀)
              (by omega) (by omega) (by rw [h1, h2])
            omega
          have hlook : lookupIdx ((r.id, rs.length) :: seenSpec rs) p = some j₀ := by
            unfold lookupIdx
            rw [if_neg hrne]
            have := lookupIdx_seenSpec_eq hnd' (j := j₀) hj₀
            rw [hj₀id] at this
            exact this
          have hedge : stepEdge (buildTree rs) r = [(j₀, rs.length)] := by
            unfold stepEdge
            rw [hp, buildTree_next, buildTree_seen]
            show (match lookupIdx ((r.id, rs.length) :: seenSpec rs) p with
              | some j => [(j, rs.length)]
              | none => []) = [(j₀, rs.length)]
            rw [hlook]
          rw [hedge, stepRoot_some hp, List.append_nil]
          have hsplice : ∀ x ∈ (buildTree rs).roots,
              List.count y (flatNode ((buildTree rs).edges ++ [(j₀, rs.length)]) f x)
                = List.count y (flatNode (buildTree rs).edges f x)
                  + (if y = rs.length then
                      List.count j₀ (flatNode (buildTree rs).edges f x) else 0) := by
            intro x hx
            have hxlt := (buildTree_roots_inv rs x hx).1
            exact count_flatNode_snoc
              (fun e he => ⟨buildTree_edge_lt_of_sorted_input rs hnd' hpar' e he,
                (buildTree_edges_inv rs e he).2.1⟩)
              hj₀ f x y hxlt (by omega)
          by_cases hym : y = rs.length
          · rw [count_flatMap_add y (buildTree rs).roots
              (flatNode (buildTree rs).edges f)
              (flatNode ((buildTree rs).edges ++ [(j₀, rs.length)]) f)
              (fun x => List.count j₀ (flatNode (buildTree rs).edges f x))
              (fun x hx => by rw [hsplice x hx, if_pos hym])]
            rw [← count_flatMap_eq_sum j₀ (buildTree rs).roots (flatNode (buildTree rs).edges f)]
            have hfirst := ih hnd' hpar' f hf' y
            have hcj := ih hnd' hpar' f hf' j₀
            unfold flattenForest at hfirst hcj
            rw [hfirst, hcj, hlen]
            split_ifs <;> omega
          · rw [count_flatMap_add y (buildTree rs).roots
              (flatNode (buildTree rs).edges f)
              (flatNode ((buildTree rs).edges ++ [(j₀, rs.length)]) f)
              (fun _ => 0) (fun x hx => by rw [hsplice x hx, if_neg hym])]
            have hfirst := ih hnd' hpar' f hf' y
            unfold flattenForest at hfirst
            have hzero : (((buildTree rs).roots).map (fun _ : Nat => (0 : Nat))).sum = 0 := by
              simp
            rw [hfirst, hlen, hzero]
            split_ifs <;> omega

/-- P7 engine: without self-parenting rows, no row is ever duplicated in
the rendered forest, whatever cycles or dangling references the input
contains. -/
theorem buildTree_at_most_once : ∀ rows : List CategoryRow,
    (∀ r ∈ rows, r.parent_id ≠ some r.id) →
    ∀ f, rows.length ≤ f → ∀ y,
      List.count y (flattenForest (buildTree rows) f) ≤ 1 := by
  intro rows
  induction rows using List.reverseRecOn with
  | nil =>
      intro _ f _ y
      simp [buildTree, flattenForest]
  | append_singleton rs r ih =>
      intro hsp f hf y
      have hsp' : ∀ x ∈ rs, x.parent_id ≠ some x.id :=
        fun x hx => hsp x (List.mem_append_left _ hx)
      have hlen : (rs ++ [r]).length = rs.length + 1 := by simp
      have hf' : rs.length ≤ f := by rw [hlen] at hf; omega
      rw [buildTree_append]
      unfold flattenForest
      rw [buildStep_roots, buildStep_edges]
      cases hp : r.parent_id with
      | none =>
          rw [stepEdge_none hp, stepRoot_none hp, List.append_nil, List.flatMap_append,
            List.count_append, buildTree_next]
          have hleaf : flatNode (buildTree rs).edges f rs.length = [rs.length] := by
            apply flatNode_no_children
            apply childIdxs_eq_nil
            intro e he
            have := buildTree_edges_inv rs e he
            omega
          have hsecond : List.count y ([rs.length].flatMap (flatNode (buildTree rs).edges f))
              = if rs.length = y then 1 else 0 := by
            simp only [List.flatMap_cons, List.flatMap_nil, List.append_nil, hleaf,
              List.count_cons, List.count_nil, beq_iff_eq, Nat.zero_add]
          rw [hsecond]
          have hfirst := ih hsp' f hf' y
          unfold flattenForest at hfirst
          by_cases hym : rs.length = y
          · have h0 : List.count y (flattenForest (buildTree rs) f) = 0 :=
              count_flattenForest_out rs f y (by omega)
            unfold flattenForest at h0
            rw [h0, if_pos hym]
          · rw [if_neg hym]
            omega
      | some p =>
          cases hl : lookupIdx ((r.id, rs.length) :: seenSpec rs) p with
          | none =>
              have hedge : stepEdge (buildTree rs) r = [] := by
                unfold stepEdge
                rw [hp, buildTree_next, buildTree_seen]
                show (match lookupIdx ((r.id, rs.length) :: seenSpec rs) p with
                  | some j => [(j, rs.length)]
                  | none => ([] : List (Nat × Nat))) = []
                rw [hl]
              rw [hedge, stepRoot_some hp, List.append_nil, List.append_nil]
              have := ih hsp' f hf' y
              unfold flattenForest at this
              exact this
          | some j₀ =>
              have hpne : p ≠ r.id := by
                intro hcontra
                exact hsp r (List.mem_append_right _ (List.mem_singleton_self r))
                  (by rw [hp, hcontra])
              have hl' : lookupIdx (seenSpec rs) p = some j₀ := by
                unfold lookupIdx at hl
                split at hl
                · rename_i hk
                  have : r.id = p := by simpa using hk
                  exact absurd this.symm hpne
                · exact hl
              have hj₀ : j₀ < rs.length := (mem_seenSpec (lookupIdx_mem hl')).1
              have hedge : stepEdge (buildTree rs) r = [(j₀, rs.length)] := by
                unfold stepEdge
                rw [hp, buildTree_next, buildTree_seen]
                show (match lookupIdx ((r.id, rs.length) :: seenSpec rs) p with
                  | some j => [(j, rs.length)]
                  | none => []) = [(j₀, rs.length)]
                rw [hl]
              rw [hedge, stepRoot_some hp, List.append_nil]
              have hsplice : ∀ x ∈ (buildTree rs).roots,
                  List.count y (flatNode ((buildTree rs).edges ++ [(j₀, rs.length)]) f x)
                    = List.count y (flatNode (buildTree rs).edges f x)
                      + (if y = rs.length then
                          List.count j₀ (flatNode (buildTree rs).edges f x) else 0) := by
                intro x hx
                have hxlt := (buildTree_roots_inv rs x hx).1
                exact count_flatNode_snoc
                  (fun e he => ⟨buildTree_edge_lt rs hsp' e he,
                    (buildTree_edges_inv rs e he).2.1⟩)
                  hj₀ f x y hxlt (by omega)
              by_cases hym : y = rs.length
              · rw [count_flatMap_add y (buildTree rs).roots
                  (flatNode (buildTree rs).edges f)
                  (flatNode ((buildTree rs).edges ++ [(j₀, rs.length)]) f)
                  (fun x => List.count j₀ (flatNode (buildTree rs).edges f x))
                  (fun x hx => by rw [hsplice x hx, if_pos hym])]
                rw [← count_flatMap_eq_sum j₀ (buildTree rs).roots
                  (flatNode (buildTree rs).edges f)]
                have h0 : List.count y (flattenForest (buildTree rs) f) = 0 :=
                  count_flattenForest_out rs f y (by omega)
                have hcj := ih hsp' f hf' j₀
                unfold flattenForest at h0 hcj
                rw [h0]
                omega
              · rw [count_flatMap_add y (buildTree rs).roots
                  (flatNode (buildTree rs).edges f)
                  (flatNode ((buildTree rs).edges ++ [(j₀, rs.length)]) f)
                  (fun _ => 0) (fun x hx => by rw [hsplice x hx, if_neg hym])]
                have hfirst := ih hsp' f hf' y
                unfold flattenForest at hfirst
                have hzero : (((buildTree rs).roots).map (fun _ : Nat => (0 : Nat))).sum = 0 := by
                  simp
                rw [hzero]
                omega

theorem getD_mem_of_lt {rows : List CategoryRow} {i : Nat} (hi : i < rows.length) :
    rows.getD i default ∈ rows := by
  rw [List.getD_eq_getElem rows default hi]
  exact List.getElem_mem hi

theorem parentEarlierB_iff (rows : List CategoryRow) :
    parentEarlierB rows = true ↔
      (∀ i, i < rows.length → ∀ p, (rows.getD i default).parent_id = some p →
        ∃ j, j < i ∧ (rows.getD j default).id = p) := by
  unfold parentEarlierB
  rw [List.all_eq_true]
  constructor
  · intro h i hi p hp
    have h1 := h i (List.mem_range.mpr hi)
    rw [hp] at h1
    have h2 : ((List.range i).any (fun j => (rows.getD j default).id == p)) = true := h1
    rcases List.any_eq_true.mp h2 with ⟨j, hj, hjid⟩
    exact ⟨j, List.mem_range.mp hj, by simpa using hjid⟩
  · intro h i hi
    cases hp : (rows.getD i default).parent_id with
    | none => rfl
    | some p =>
        rcases h i (List.mem_range.mp hi) p hp with ⟨j, hj, hjid⟩
        show ((List.range i).any (fun j => (rows.getD j default).id == p)) = true
        exact List.any_eq_true.mpr ⟨j, List.mem_range.mpr hj, by simpa using hjid⟩

/-- C1 counterexample: on the input consisting of the single orphan row
(id 9 pointing at the absent id 42), the claim "the orphan appears in the
output forest as an additional root" is false: `root_categories` is empty
and the rendered forest is empty — the row is dropped. -/
theorem c1_counterexample :
    0 ∉ (buildTree orphanRows).roots ∧ flattenForest (buildTree orphanRows) 1 = [] := by
  constructor
  · decide
  · rfl

/-- C1 (amended): a row whose `parent_id` references an id absent from
the input set is silently dropped by `get_category_tree`'s loop — it is
appended neither to `root_categories` nor to any `children` list, so it
appears nowhere in the output forest (rather than being surfaced as an
orphan root). -/
theorem c1_orphan_dropped (rows : List CategoryRow) (i p : Nat)
    (hi : i < rows.length)
    (hp : (rows.getD i default).parent_id = some p)
    (habs : ∀ r ∈ rows, r.id ≠ p) :
    i ∉ (buildTree rows).roots ∧ ∀ f, i ∉ flattenForest (buildTree rows) f := by
  have hroot : i ∉ (buildTree rows).roots := by
    intro hmem
    rcases buildTree_roots_inv rows i hmem with ⟨_, hnone⟩
    rw [hp] at hnone
    exact Option.noConfusion hnone
  refine ⟨hroot, ?_⟩
  intro f hmem
  rcases mem_flattenForest hmem with h | ⟨e, he, hey⟩
  · exact hroot h
  · rcases buildTree_edges_inv rows e he with ⟨h1, h2, h3⟩
    rw [hey, hp] at h3
    have hid : (rows.getD e.1 default).id = p := (Option.some.injEq .. ▸ h3).symm
    exact habs (rows.getD e.1 default) (getD_mem_of_lt (by omega)) hid

theorem c1_orphan_dropped_witness :
    0 ∉ (buildTree orphanRows).roots ∧ ∀ f, 0 ∉ flattenForest (buildTree orphanRows) f :=
  c1_orphan_dropped orphanRows 0 42 (by decide) (by decide) (by decide)

/-- C2 counterexample: feeding `get_category_tree`'s loop a sequence in
which a child row precedes its parent row ([id 2 with parent 1, id 1 with
no parent]) makes the claim "every row appears exactly once in the
resulting forest" false: the rendered forest is `[1]` (only the root row,
at input position 1), and the child row at input position 0 appears zero
times. -/
theorem c2_counterexample :
    flattenForest (buildTree
      [⟨2, "B", some 1, 1, ["A", "B"], true⟩, ⟨1, "A", none, 0, ["A"], true⟩]) 3 = [1]
    ∧ List.count 0 (flattenForest (buildTree
      [⟨2, "B", some 1, 1, ["A", "B"], true⟩, ⟨1, "A", none, 0, ["A"], true⟩]) 3) = 0 := by
  constructor
  · rfl
  · rfl

/-- C2 (amended): when the active rows have pairwise-distinct ids and
every non-null `parent_id` is the id of an earlier row of the sequence
(which is how the endpoint's path-ordered recursive CTE delivers them),
the rendered forest contains every input row exactly once — no row is
dropped and no row is duplicated; without that ordering premise a row can
be dropped, as the counterexample shows. -/
theorem c2_exactly_once (rows : List CategoryRow)
    (hnd : (rows.map (fun r => r.id)).Nodup)
    (hpe : parentEarlierB rows = true) :
    ∀ y, List.count y (flattenForest (buildTree rows) (rows.length + 1))
      = if y < rows.length then 1 else 0 :=
  fun y => buildTree_complete rows hnd ((parentEarlierB_iff rows).mp hpe)
    (rows.length + 1) (by omega) y

theorem c2_exactly_once_witness :
    List.count 2 (flattenForest (buildTree sampleRows) 6) = 1 := by
  have h := c2_exactly_once sampleRows (by decide) (by decide) 2
  simpa using h

/-- C3 counterexample: on the 2-cycle input (row A with parent B, row B
with parent A) the construction terminates, but the claim "each row of
the cycle appears exactly once in the output forest" is false: the
rendered forest is empty, so each of A (input position 0) and B (input
position 1) appears zero times. -/
theorem c3_counterexample :
    flattenForest (buildTree cycleRows) 3 = []
    ∧ List.count 0 (flattenForest (buildTree cycleRows) 3) = 0
    ∧ List.count 1 (flattenForest (buildTree cycleRows) 3) = 0 := by
  refine ⟨rfl, rfl, rfl⟩

/-- C3 (amended): the two-pass construction is a single bounded pass (the
model is a structurally terminating fold, mirroring the loop that visits
each fetched row once), and on any input without a self-parenting row —
in particular on any 2-cycle such as A↔B — no row ever appears more than
once in the output forest; rows of a cycle are in fact dropped (appear
zero times) rather than duplicated or looped over. -/
theorem c3_cycle_no_duplication (rows : List CategoryRow)
    (hsp : ∀ r ∈ rows, r.parent_id ≠ some r.id) (f y : Nat)
    (hf : rows.length ≤ f) :
    List.count y (flattenForest (buildTree rows) f) ≤ 1 :=
  buildTree_at_most_once rows hsp f hf y

theorem c3_cycle_no_duplication_witness :
    List.count 0 (flattenForest (buildTree cycleRows) 2) ≤ 1
    ∧ List.count 1 (flattenForest (buildTree cycleRows) 2) ≤ 1 :=
  ⟨c3_cycle_no_duplication cycleRows (by decide) 2 0 (by decide),
   c3_cycle_no_duplication cycleRows (by decide) 2 1 (by decide)⟩

theorem sqlRepeat_spaces (n : Nat) :
    sqlRepeat "  " n = String.mk (List.replicate (2 * n) ' ') := by
  induction n with
  | zero => rfl
  | succ n ih =>
      show "  " ++ sqlRepeat "  " n = _
      rw [ih]
      show String.mk ([' ', ' '] ++ List.replicate (2 * n) ' ')
        = String.mk (List.replicate (2 * (n + 1)) ' ')
      congr 1

/-- All branches of the `CASE` agree with the uniform formula: the label
is the name left-padded with `2 × level` spaces. -/
theorem treeDisplay_eq (level : Nat) (name : String) :
    treeDisplay level name = String.mk (List.replicate (2 * level) ' ') ++ name := by
  obtain ⟨d⟩ := name
  match level with
  | 0 => rfl
  | 1 => rfl
  | 2 => rfl
  | 3 => rfl
  | l + 4 =>
      show sqlRepeat "  " (l + 4) ++ String.mk d = _
      rw [sqlRepeat_spaces]

/-- C4 counterexample: a root category (null parent, recomputed depth 0)
whose stored `level` column is stale at 3. The claim predicts the display
label equals the bare name `"X"` (depth 0 ⇒ no padding); the endpoint
instead pads with `2 × level = 6` spaces, because it keys the `CASE` off
the view's stored `level` column and performs no tree construction or
depth recomputation at all. -/
theorem c4_counterexample :
    (get_category_hierarchy (hierarchyView [⟨1, "X", none, 3, ["X"], true⟩])).map
        (fun r => r.full_path) = ["      X"]
    ∧ ("      X" : String) ≠ "X" := by
  constructor
  · rfl
  · decide

/-- C4 (amended): for every node of the hierarchy response, the display
label equals the node's name left-padded with `level × 2` spaces, where
`level` is the stored `level` column carried by the
`app.category_hierarchy` view row — not a depth recomputed during tree
construction (the endpoint builds no tree); the two agree only when the
stored level is accurate. -/
theorem c4_display_padding (rows : List CategoryRow) :
    (get_category_hierarchy (hierarchyView rows)).map (fun r => r.full_path)
      = (rows.filter (fun r => r.is_active)).map
          (fun r => String.mk (List.replicate (2 * r.level) ' ') ++ r.name) := by
  unfold get_category_hierarchy hierarchyView
  rw [List.map_map, List.map_map]
  apply List.map_congr_left
  intro r _
  exact treeDisplay_eq r.level r.name

theorem countP_flatMap (q : CategoryRow → Bool) (l : List CategoryRow)
    (g : CategoryRow → List CategoryRow) :
    List.countP q (l.flatMap g) = (l.map (fun p => List.countP q (g p))).sum := by
  induction l with
  | nil => simp
  | cons a t ih => simp [List.countP_append, ih]

theorem sum_map_ite_id {l : List CategoryRow}
    (hnd : (l.map (fun c => c.id)).Nodup) {r : CategoryRow} (hr : r ∈ l) (L : Nat) :
    (l.map (fun p => if p.id = r.id then L else 0)).sum = L := by
  induction l with
  | nil => simp at hr
  | cons a t ih =>
      rw [List.map_cons, List.sum_cons]
      rw [List.map_cons, List.nodup_cons] at hnd
      by_cases ha : a.id = r.id
      · rw [if_pos ha]
        have hz : (t.map (fun p => if p.id = r.id then L else 0)).sum = 0 := by
          apply List.sum_eq_zero
          intro x hx
          rcases List.mem_map.mp hx with ⟨p, hp, hpx⟩
          have hne : p.id ≠ r.id := by
            intro hc
            exact hnd.1 (List.mem_map.mpr ⟨p, hp, by rw [hc, ha]⟩)
          rw [if_neg hne] at hpx
          omega
        rw [hz]
        omega
      · rw [if_neg ha]
        have hr' : r ∈ t := by
          rcases List.mem_cons.mp hr with h | h
          · exact absurd (by rw [h]) ha
          · exact h
        rw [ih hnd.2 hr']
        omega

/-- C5: the children count reported by `GET /analytics/category-children`
for a depth-0 category `r` equals the number of active rows whose
`parent_id` is exactly `r.id` — direct children only; grandchildren never
enter the count because the `LEFT JOIN` is restricted to `child.depth = 1`
and filtered on `child.parent_id = parent.id`. -/
theorem c5_immediate_children_only (rows : List CategoryRow) (r : CategoryRow)
    (hnd : ((cteRoots rows).map (fun c => c.id)).Nodup)
    (hr : r ∈ cteRoots rows) :
    childrenCountFor rows r
      = (rows.filter (fun c => c.is_active && c.parent_id == some r.id)).length := by
  unfold childrenCountFor cteDepth1
  rw [← List.countP_eq_length_filter, countP_flatMap]
  have hpoint : ∀ p ∈ cteRoots rows,
      List.countP (fun c => c.parent_id == some r.id)
        (rows.filter (fun c => c.is_active && c.parent_id == some p.id))
      = if p.id = r.id then
          (rows.filter (fun c => c.is_active && c.parent_id == some r.id)).length
        else 0 := by
    intro p _
    by_cases hpr : p.id = r.id
    · rw [if_pos hpr, hpr]
      apply List.countP_eq_length.mpr
      intro c hc
      have h2 := (List.mem_filter.mp hc).2
      exact ((Bool.and_eq_true _ _).mp h2).2
    · rw [if_neg hpr]
      apply List.countP_eq_zero.mpr
      intro c hc
      have h2 := (List.mem_filter.mp hc).2
      have hparent : c.parent_id = some p.id := by
        have h3 := ((Bool.and_eq_true _ _).mp h2).2
        simpa using h3
      simp [hparent, hpr]
  rw [List.map_congr_left hpoint]
  exact sum_map_ite_id hnd hr _

theorem c5_immediate_children_only_witness :
    childrenCountFor c5Rows ⟨1, "Root", none, 0, ["Root"], true⟩ = 2 := by
  have h := c5_immediate_children_only c5Rows ⟨1, "Root", none, 0, ["Root"], true⟩
    (by decide) (by decide)
  simpa using h

theorem countP_id_eq_one {l : List CategoryRow}
    (hnd : (l.map (fun c => c.id)).Nodup) {c : CategoryRow} (hc : c ∈ l) :
    List.countP (fun x => x.id == c.id) l = 1 := by
  induction l with
  | nil => simp at hc
  | cons a t ih =>
      rw [List.countP_cons]
      rw [List.map_cons, List.nodup_cons] at hnd
      by_cases ha : a.id = c.id
      · have hzero : List.countP (fun x => x.id == c.id) t = 0 := by
          apply List.countP_eq_zero.mpr
          intro x hx
          simp only [beq_iff_eq]
          intro hxc
          exact hnd.1 (List.mem_map.mpr ⟨x, hx, by rw [hxc, ha]⟩)
        simp [ha, hzero]
      · have hc' : c ∈ t := by
          rcases List.mem_cons.mp hc with h | h
          · exact absurd (by rw [h]) ha
          · exact h
        rw [ih hnd.2 hc']
        simp [ha]

/-- C6: the stats endpoints return exactly one aggregate per active
category — categories without matching active inventory included, with
all-zero metrics — never omitting a category from the roster. -/
theorem c6_one_aggregate_per_category (cats : List CategoryRow) (noms : List NomRow)
    (hnd : ((cats.filter (fun c => c.is_active)).map (fun c => c.id)).Nodup) :
    (aggregateCategoryStats cats noms).length = (cats.filter (fun c => c.is_active)).length
    ∧ (∀ c ∈ cats, c.is_active = true →
        ((aggregateCategoryStats cats noms).filter
          (fun e => e.category_id == c.id)).length = 1)
    ∧ (∀ c ∈ cats, c.is_active = true → statsItems c noms = [] →
        ∀ e ∈ aggregateCategoryStats cats noms, e.category_id = c.id →
          e.products_count = 0 ∧ e.total_quantity = 0 ∧ e.avg_price = 0
          ∧ e.min_price = 0 ∧ e.max_price = 0 ∧ e.total_value = 0) := by
  have hperm := List.perm_insertionSort
    (fun a b : CategoryStatsRow => b.total_value ≤ a.total_value)
    ((cats.filter (fun c => c.is_active)).map (fun c => statsFor c noms))
  refine ⟨?_, ?_, ?_⟩
  · rw [aggregateCategoryStats, hperm.length_eq, List.length_map]
  · intro c hc hact
    have hmem : c ∈ cats.filter (fun c => c.is_active) :=
      List.mem_filter.mpr ⟨hc, hact⟩
    rw [aggregateCategoryStats, ← List.countP_eq_length_filter,
      hperm.countP_eq, List.countP_map]
    have : ((fun e : CategoryStatsRow => e.category_id == c.id)
        ∘ (fun c' => statsFor c' noms)) = (fun c' : CategoryRow => c'.id == c.id) := by
      funext c'
      rfl
    rw [this]
    exact countP_id_eq_one hnd hmem
  · intro c hc hact hempty e he heid
    rw [aggregateCategoryStats] at he
    have he' := hperm.mem_iff.mp he
    rcases List.mem_map.mp he' with ⟨c', hc', hec⟩
    have hcid : c'.id = c.id := by rw [← heid, ← hec]; rfl
    have hceq : c' = c :=
      List.inj_on_of_nodup_map hnd hc' (List.mem_filter.mpr ⟨hc, hact⟩) hcid
    subst hceq
    rw [← hec]
    unfold statsFor
    rw [hempty]
    refine ⟨rfl, rfl, ?_, rfl, rfl, rfl⟩
    simp

/-- C7: the stats output is sorted by total inventory value descending,
and every zero-valued aggregate appears after every positive-valued one. -/
theorem c7_stats_sorted (cats : List CategoryRow) (noms : List NomRow) :
    List.Pairwise (fun a b => b.total_value ≤ a.total_value)
      (aggregateCategoryStats cats noms)
    ∧ (∀ i j, i < (aggregateCategoryStats cats noms).length →
        j < (aggregateCategoryStats cats noms).length →
        ((aggregateCategoryStats cats noms).getD i default).total_value = 0 →
        0 < ((aggregateCategoryStats cats noms).getD j default).total_value →
        j < i) := by
  have hP : List.Pairwise (fun a b => b.total_value ≤ a.total_value)
      (aggregateCategoryStats cats noms) := by
    rw [aggregateCategoryStats]
    exact List.sorted_insertionSort
      (fun a b : CategoryStatsRow => b.total_value ≤ a.total_value)
      ((cats.filter (fun c => c.is_active)).map (fun c => statsFor c noms))
  refine ⟨hP, ?_⟩
  intro i j hi hj h0 hpos
  rw [List.getD_eq_getElem _ default hi] at h0
  rw [List.getD_eq_getElem _ default hj] at hpos
  rcases lt_trichotomy i j with h | h | h
  · exfalso
    have hle := List.pairwise_iff_getElem.mp hP i j hi hj h
    exact absurd (lt_of_lt_of_le hpos hle) (by rw [h0]; exact lt_irrefl 0)
  · exfalso
    subst h
    rw [h0] at hpos
    exact lt_irrefl 0 hpos
  · exact h

theorem aggregate_sample_eval :
    aggregateCategoryStats sampleRows statsNoms =
    [⟨3, "Washers", 1, 5, 25000, 25000, 25000, 125000⟩,
     ⟨1, "Appliances", 0, 0, 0, 0, 0, 0⟩,
     ⟨2, "Computers", 0, 0, 0, 0, 0, 0⟩,
     ⟨4, "Fridges", 0, 0, 0, 0, 0, 0⟩,
     ⟨5, "Laptops", 0, 0, 0, 0, 0, 0⟩] := by
  norm_num [aggregateCategoryStats, statsFor, statsItems, sampleRows, statsNoms,
    List.insertionSort, List.orderedInsert, listMinQ, listMaxQ]

theorem c6_one_aggregate_per_category_witness :
    (aggregateCategoryStats sampleRows statsNoms).length = 5
    ∧ ((aggregateCategoryStats sampleRows statsNoms).filter
        (fun e => e.category_id == 1)).length = 1
    ∧ (∀ e ∈ aggregateCategoryStats sampleRows statsNoms, e.category_id = 1 →
        e.products_count = 0 ∧ e.total_quantity = 0 ∧ e.avg_price = 0
        ∧ e.min_price = 0 ∧ e.max_price = 0 ∧ e.total_value = 0) := by
  have h := c6_one_aggregate_per_category sampleRows statsNoms (by decide)
  refine ⟨?_, ?_, ?_⟩
  · rw [h.1]
    rfl
  · exact h.2.1 ⟨1, "Appliances", none, 0, ["Appliances"], true⟩ (by decide) rfl
  · exact h.2.2 ⟨1, "Appliances", none, 0, ["Appliances"], true⟩ (by decide) rfl (by decide)

theorem c7_stats_sorted_witness :
    ((aggregateCategoryStats sampleRows statsNoms).getD 1 default).total_value = 0
    ∧ 0 < ((aggregateCategoryStats sampleRows statsNoms).getD 0 default).total_value
    ∧ (1 : Nat) > 0 := by
  have hagg := aggregate_sample_eval
  have h1 : ((aggregateCategoryStats sampleRows statsNoms).getD 1 default).total_value = 0 := by
    rw [hagg]
    rfl
  have h0 : (0 : ℚ) < ((aggregateCategoryStats sampleRows statsNoms).getD 0 default).total_value := by
    rw [hagg]
    show (0 : ℚ) < 125000
    norm_num
  exact ⟨h1, h0,
    (c7_stats_sorted sampleRows statsNoms).2 1 0
      (by rw [hagg]; norm_num) (by rw [hagg]; norm_num) h1 h0⟩

theorem strLtB_irrefl (l : List Char) : strLtB l l = false := by
  induction l with
  | nil => rfl
  | cons a as ih => simp [strLtB, ih]

theorem pathLtB_append (s : List String) (a b : String) :
    pathLtB (s ++ [a]) (s ++ [b]) = strLtB a.data b.data := by
  induction s with
  | nil =>
      show pathLtB [a] [b] = _
      by_cases h : strLtB a.data b.data = true
      · simp [pathLtB, h]
      · have h' : strLtB a.data b.data = false := by simpa using h
        by_cases h2 : strLtB b.data a.data = true
        · simp [pathLtB, h', h2]
        · have h2' : strLtB b.data a.data = false := by simpa using h2
          simp [pathLtB, h', h2']
  | cons x s ih =>
      show pathLtB (x :: (s ++ [a])) (x :: (s ++ [b])) = _
      simp [pathLtB, strLtB_irrefl, ih]

theorem pathLeB_append (s : List String) (a b : String) :
    pathLeB (s ++ [a]) (s ++ [b]) = strLeB a b := by
  unfold pathLeB strLeB
  rw [pathLtB_append]

/-- C8: when the rows arrive sorted by the materialized `path` column
(as `ORDER BY path` delivers them) and the `path` column is consistent
with the ancestry chain of names (root path = own name; child path =
parent path extended by the child's name, the invariant the
`update_category_path` trigger maintains), the loop of
`get_category_tree` produces a forest whose root list is ordered by name
ascending and whose children lists are each ordered by name ascending,
all under the single collation `strLeB`. -/
theorem c8_ordering (rows : List CategoryRow)
    (hsorted : List.Pairwise (fun a b => pathLeB a.path b.path = true) rows)
    (hpathroot : ∀ r ∈ rows, r.parent_id = none → r.path = [r.name])
    (hpathchild : ∀ c ∈ rows, ∀ pr ∈ rows, c.parent_id = some pr.id →
      c.path = pr.path ++ [c.name]) :
    List.Pairwise (fun a b => strLeB a b = true)
      ((buildTree rows).roots.map (fun i => (rows.getD i default).name))
    ∧ ∀ j, List.Pairwise (fun a b => strLeB a b = true)
      ((childIdxs (buildTree rows).edges j).map (fun i => (rows.getD i default).name)) := by
  have hpw : ∀ i1 i2, i1 < i2 → i1 < rows.length → i2 < rows.length →
      pathLeB (rows.getD i1 default).path (rows.getD i2 default).path = true := by
    intro i1 i2 h12 h1 h2
    have := List.pairwise_iff_getElem.mp hsorted i1 i2 h1 h2 h12
    rw [List.getD_eq_getElem rows default h1, List.getD_eq_getElem rows default h2]
    exact this
  constructor
  · rw [List.pairwise_map]
    apply List.Pairwise.imp_of_mem ?_ (buildTree_roots_sorted rows)
    intro a b ha hb hab
    rcases buildTree_roots_inv rows a ha with ⟨halt, hanone⟩
    rcases buildTree_roots_inv rows b hb with ⟨hblt, hbnone⟩
    have hpa := hpathroot _ (getD_mem_of_lt halt) hanone
    have hpb := hpathroot _ (getD_mem_of_lt hblt) hbnone
    have h := hpw a b hab halt hblt
    rw [hpa, hpb] at h
    have := pathLeB_append [] (rows.getD a default).name (rows.getD b default).name
    rw [List.nil_append, List.nil_append] at this
    rw [this] at h
    exact h
  · intro j
    rw [List.pairwise_map]
    have hsub : (childIdxs (buildTree rows).edges j).Sublist
        ((buildTree rows).edges.map (fun e => e.2)) := by
      unfold childIdxs
      exact List.Sublist.map _ (List.filter_sublist _)
    have hlt : List.Pairwise (· < ·) (childIdxs (buildTree rows).edges j) :=
      (buildTree_edge_targets_sorted rows).sublist hsub
    apply List.Pairwise.imp_of_mem ?_ hlt
    intro a b ha hb hab
    rcases mem_childIdxs ha with ⟨e1, he1, he1j, he1a⟩
    rcases mem_childIdxs hb with ⟨e2, he2, he2j, he2b⟩
    rcases buildTree_edges_inv rows e1 he1 with ⟨hle1, hlt1, hpar1⟩
    rcases buildTree_edges_inv rows e2 he2 with ⟨hle2, hlt2, hpar2⟩
    simp only [he1j, he1a] at hpar1 hle1 hlt1
    simp only [he2j, he2b] at hpar2 hle2 hlt2
    have hjlt : j < rows.length := lt_of_le_of_lt hle1 hlt1
    have hpa := hpathchild _ (getD_mem_of_lt hlt1) _ (getD_mem_of_lt hjlt) hpar1
    have hpb := hpathchild _ (getD_mem_of_lt hlt2) _ (getD_mem_of_lt hjlt) hpar2
    have h := hpw a b hab hlt1 hlt2
    rw [hpa, hpb, pathLeB_append] at h
    exact h

theorem c8_ordering_witness :
    List.Pairwise (fun a b => strLeB a b = true)
      ((buildTree c8Rows).roots.map (fun i => (c8Rows.getD i default).name))
    ∧ ∀ j, List.Pairwise (fun a b => strLeB a b = true)
      ((childIdxs (buildTree c8Rows).edges j).map (fun i => (c8Rows.getD i default).name)) :=
  c8_ordering c8Rows (by decide) (by decide) (by decide)

/-- C9: the deletion is rejected with an error — leaving the whole state
unchanged — whenever any category row references the target as parent or
any nomenclature row references it as category; and the row is deleted
exactly when the category exists and neither kind of reference exists
(in which case only the category rows with that id disappear). -/
theorem c9_delete_category_guard (db : DBState) (cid : Nat) :
    (((∃ c ∈ db.categories, c.parent_id = some cid)
        ∨ (∃ n ∈ db.nomenclature, n.category_id = cid)) →
      (∃ e, (delete_category cid db).1 = .error e) ∧ (delete_category cid db).2 = db)
    ∧ ((delete_category cid db).1 = .ok () ↔
        (∃ c ∈ db.categories, c.id = cid)
        ∧ (∀ c ∈ db.categories, c.parent_id ≠ some cid)
        ∧ (∀ n ∈ db.nomenclature, n.category_id ≠ cid))
    ∧ ((delete_category cid db).1 = .ok () →
        (delete_category cid db).2.categories
          = db.categories.filter (fun c => !(c.id == cid))
        ∧ (delete_category cid db).2.nomenclature = db.nomenclature) := by
  have hex : (db.categories.find? (fun c => c.id == cid)).isSome
      ↔ ∃ c ∈ db.categories, c.id = cid := by
    rw [List.find?_isSome]
    simp
  have hch : (0 < db.categories.countP (fun c => c.parent_id == some cid))
      ↔ ∃ c ∈ db.categories, c.parent_id = some cid := by
    rw [List.countP_pos_iff]
    simp
  have hnm : (0 < db.nomenclature.countP (fun n => n.category_id == cid))
      ↔ ∃ n ∈ db.nomenclature, n.category_id = cid := by
    rw [List.countP_pos_iff]
    simp
  unfold delete_category
  split_ifs with h1 h2 h3
  · refine ⟨fun _ => ⟨⟨.notFound, rfl⟩, rfl⟩, ?_, ?_⟩
    · constructor
      · intro h
        exact h.elim
      · rintro ⟨hexists, -, -⟩
        rw [Option.isNone_iff_eq_none] at h1
        have : (db.categories.find? (fun c => c.id == cid)).isSome := hex.mpr hexists
        rw [h1] at this
        exact Bool.noConfusion this
    · intro h
      exact h.elim
  · refine ⟨fun _ => ⟨⟨.badRequest, rfl⟩, rfl⟩, ?_, ?_⟩
    · constructor
      · intro h
        exact h.elim
      · rintro ⟨-, hnoch, -⟩
        rcases hch.mp h2 with ⟨c, hc, hcp⟩
        exact absurd hcp (hnoch c hc)
    · intro h
      exact h.elim
  · refine ⟨fun _ => ⟨⟨.badRequest, rfl⟩, rfl⟩, ?_, ?_⟩
    · constructor
      · intro h
        exact h.elim
      · rintro ⟨-, -, hnonm⟩
        rcases hnm.mp h3 with ⟨n, hn, hnc⟩
        exact absurd hnc (hnonm n hn)
    · intro h
      exact h.elim
  · refine ⟨?_, ?_, fun _ => ⟨rfl, rfl⟩⟩
    · intro hrefs
      rcases hrefs with h | h
      · exact absurd (hch.mpr h) h2
      · exact absurd (hnm.mpr h) h3
    · constructor
      · intro _
        refine ⟨?_, ?_, ?_⟩
        · apply hex.mp
          cases hfind : (db.categories.find? (fun c => c.id == cid)) with
          | none => exact absurd (by rw [hfind]; rfl) h1
          | some c => rfl
        · intro c hc hcp
          exact h2 (hch.mpr ⟨c, hc, hcp⟩)
        · intro n hn hnc
          exact h3 (hnm.mpr ⟨n, hn, hnc⟩)
      · intro _
        rfl

theorem c9_delete_category_guard_witness :
    ((∃ e, (delete_category 1 c9Db).1 = .error e) ∧ (delete_category 1 c9Db).2 = c9Db)
    ∧ (delete_category 3 c9Db).1 = .ok () := by
  refine ⟨(c9_delete_category_guard c9Db 1).1 ?_,
    ((c9_delete_category_guard c9Db 3).2.1).mpr ?_⟩
  · left
    exact ⟨⟨2, "A", some 1, 1, ["R", "A"], true⟩, by decide, by decide⟩
  · refine ⟨⟨⟨3, "S", none, 0, ["S"], true⟩, by decide, by decide⟩, by decide, by decide⟩

theorem applyDelta_comm (d e : Int) (a b : Nat) (ns : List NomRow) :
    applyDelta d a (applyDelta e b ns) = applyDelta e b (applyDelta d a ns) := by
  unfold applyDelta
  rw [List.map_map, List.map_map]
  apply List.map_congr_left
  intro n _
  by_cases h1 : (n.id == b) = true <;> by_cases h2 : (n.id == a) = true <;>
    simp only [Function.comp_apply, h1, h2, if_pos, if_neg, ite_true, ite_false]
  · cases n
    simp only [h1, h2, ite_true]
    simp
    omega
  · cases n
    simp_all
  · cases n
    simp_all
  · cases n
    simp_all

theorem applyDelta_cancel (q : Int) (nid : Nat) (ns : List NomRow) :
    applyDelta q nid (applyDelta (-q) nid ns) = ns := by
  unfold applyDelta
  rw [List.map_map]
  conv_rhs => rw [← List.map_id ns]
  apply List.map_congr_left
  intro n _
  by_cases h : (n.id == nid) = true
  · cases n
    simp_all
  · cases n
    simp_all

theorem foldl_applyDelta_comm (d : Int) (a : Nat) (items : List OrderItemRow)
    (sign : Int) (ns : List NomRow) :
    applyDelta d a (items.foldl
        (fun ns it => applyDelta (sign * it.quantity) it.nomenclature_id ns) ns)
      = items.foldl
        (fun ns it => applyDelta (sign * it.quantity) it.nomenclature_id ns)
        (applyDelta d a ns) := by
  induction items generalizing ns with
  | nil => rfl
  | cons it rest ih =>
      rw [List.foldl_cons, List.foldl_cons, ih, applyDelta_comm]

theorem foldl_applyDelta_roundtrip (items : List OrderItemRow) (ns : List NomRow) :
    items.foldl (fun ns it => applyDelta it.quantity it.nomenclature_id ns)
      (items.foldl (fun ns it => applyDelta (-it.quantity) it.nomenclature_id ns) ns)
      = ns := by
  have hgen : ∀ (l : List OrderItemRow) (ns : List NomRow),
      l.foldl (fun ns it => applyDelta (1 * it.quantity) it.nomenclature_id ns)
        (l.foldl (fun ns it => applyDelta ((-1) * it.quantity) it.nomenclature_id ns) ns)
        = ns := by
    intro l
    induction l with
    | nil => intro ns; rfl
    | cons it rest ih =>
        intro ns
        rw [List.foldl_cons, List.foldl_cons]
        rw [foldl_applyDelta_comm (1 * it.quantity) it.nomenclature_id rest (-1)
          (applyDelta ((-1) * it.quantity) it.nomenclature_id ns)]
        have hneg : ((-1 : Int)) * it.quantity = -(1 * it.quantity) := by ring
        rw [hneg, applyDelta_cancel, ih]
  have h1 : (fun (ns : List NomRow) (it : OrderItemRow) =>
      applyDelta it.quantity it.nomenclature_id ns)
      = fun ns it => applyDelta (1 * it.quantity) it.nomenclature_id ns := by
    funext ns it
    rw [one_mul]
  have h2 : (fun (ns : List NomRow) (it : OrderItemRow) =>
      applyDelta (-it.quantity) it.nomenclature_id ns)
      = fun ns it => applyDelta ((-1) * it.quantity) it.nomenclature_id ns := by
    funext ns it
    rw [neg_one_mul]
  rw [h1, h2, hgen]

theorem le_foldr_max (l : List Nat) : ∀ a ∈ l, a ≤ l.foldr max 0 := by
  induction l with
  | nil => intro a ha; simp at ha
  | cons x t ih =>
      intro a ha
      rw [List.foldr_cons]
      rcases List.mem_cons.mp ha with h | h
      · rw [h]
        exact le_max_left _ _
      · exact le_trans (ih a h) (le_max_right _ _)

/-- The sequence-assigned order id is larger than every existing id. -/
theorem freshOrderId_gt (st : OrdersState) : ∀ o ∈ st.orders, o.id < freshOrderId st := by
  intro o ho
  have := le_foldr_max (st.orders.map (fun o => o.id)) o.id
    (List.mem_map.mpr ⟨o, ho, rfl⟩)
  unfold freshOrderId
  omega

theorem find?_append_fresh (orders : List OrderRow) (newO : OrderRow)
    (h : ∀ o ∈ orders, o.id ≠ newO.id) :
    (orders ++ [newO]).find? (fun o => o.id == newO.id) = some newO := by
  induction orders with
  | nil => simp [List.find?]
  | cons a t ih =>
      rw [List.cons_append]
      have ha : (a.id == newO.id) = false := by
        simp only [beq_eq_false_iff_ne, ne_eq]
        exact h a (List.mem_cons_self a t)
      rw [List.find?_cons_of_neg _ (by simp [ha]), ih (fun o ho => h o (List.mem_cons_of_mem a ho))]

/-- C10: when `create_order` succeeds, each referenced nomenclature
quantity has been decremented by the ordered quantity; deleting the
freshly created order while its status is neither 'completed' nor
'processing' succeeds and re-increments the same quantities, so the whole
nomenclature table — in particular every on-hand quantity — is restored
exactly to its pre-order state. -/
theorem c10_create_delete_roundtrip (st : OrdersState) (p : OrderPayload)
    (oid : Nat) (st₁ : OrdersState)
    (hc : create_order p st = (.ok oid, st₁))
    (hs1 : p.status ≠ "completed") (hs2 : p.status ≠ "processing") :
    (delete_order oid st₁).1 = .ok ()
    ∧ (delete_order oid st₁).2.nomenclature = st.nomenclature := by
  unfold create_order at hc
  split_ifs at hc with h1
  · exact absurd (congrArg Prod.fst hc) (by simp)
  · split at hc
    · exact absurd (congrArg Prod.fst hc) (by simp)
    · have hoid : oid = freshOrderId st := by
        have := congrArg Prod.fst hc
        simp at this
        exact this.symm
      have hst : st₁ = { st with
          orders := st.orders ++
            [⟨freshOrderId st, p.client_id, p.status, p.payment_status, p.items⟩],
          nomenclature := p.items.foldl
            (fun ns it => applyDelta (-it.quantity) it.nomenclature_id ns)
            st.nomenclature } := by
        have := congrArg Prod.snd hc
        simp at this
        exact this.symm
      subst hoid
      subst hst
      unfold delete_order
      dsimp only
      have hfind : ((st.orders ++
          [({ id := freshOrderId st, client_id := p.client_id, status := p.status, payment_status := p.payment_status, items := p.items } : OrderRow)]).find?
            (fun o => o.id == freshOrderId st)) =
          some ({ id := freshOrderId st, client_id := p.client_id, status := p.status, payment_status := p.payment_status, items := p.items } : OrderRow) := by
        exact find?_append_fresh st.orders
          ({ id := freshOrderId st, client_id := p.client_id, status := p.status, payment_status := p.payment_status, items := p.items } : OrderRow)
          (fun o ho => Nat.ne_of_lt (freshOrderId_gt st o ho))
      rw [hfind]
      have hstat : ((p.status == "completed") || (p.status == "processing")) = false := by
        simp only [Bool.or_eq_false_iff, beq_eq_false_iff_ne, ne_eq]
        exact ⟨hs1, hs2⟩
      dsimp only
      rw [if_neg (by rw [hstat]; exact Bool.false_ne_true)]
      exact ⟨rfl, foldl_applyDelta_roundtrip p.items st.nomenclature⟩

theorem c10_create_delete_roundtrip_witness :
    (delete_order 1 c10St1).1 = .ok ()
    ∧ (delete_order 1 c10St1).2.nomenclature = c10St.nomenclature := by
  have hc : create_order c10Payload c10St = (.ok 1, c10St1) := by rfl
  exact c10_create_delete_roundtrip c10St c10Payload 1 c10St1 hc (by decide) (by decide)
